import Mathlib

/-!
Verification of the integer-constrained parameterization and quad extraction
pipeline of `src/parametrizer.cpp` (QuadriFlow).  Each section shallowly embeds
the part of the source a claim is about; machine `int` arithmetic is modelled
with `Int` (C truncated division is `Int.tdiv`/`Int.tmod` where it matters),
Eigen `Vector2i` with `Int × Int`, and `std::vector` state either with Lean
lists (where index bounds are at issue) or with total functions `Nat → _`
(where they are not).  External repository code that is not under `src/`
(field-math.hpp, dedge.hpp, dset.hpp, the hierarchy and the flow optimizer) is
modelled from the specification; every such definition carries a doc comment
starting with `Modelled from the spec:`.
-/

set_option autoImplicit false

/-! ### Shared small definitions -/

/-- Modelled from the spec: `rshift90(v, r)` rotates an integer 2-vector by
`r · 90°` counter-clockwise (glossary of the spec; the implementation lives in
`field-math.hpp`, which is not under `src/`).  Callers in `parametrizer.cpp`
always pass `r ∈ {0,1,2,3}`; the `% 4` makes the model total. -/
def rshift90 (v : Int × Int) (r : Nat) : Int × Int :=
  match r % 4 with
  | 0 => v
  | 1 => (-v.2, v.1)
  | 2 => (-v.1, -v.2)
  | _ => (v.2, -v.1)

/-- Modelled from the spec: `DEdge` is the unordered pair of two vertex ids,
with order-insensitive equality (`dedge.hpp` is not under `src/`).  We
represent it by the sorted pair. -/
def DEdgeMk (x y : Nat) : Nat × Nat :=
  if x < y then (x, y) else (y, x)

/-- Contribution of a face with signed area `a` to the accumulated negative
area: the source does `if (area < 0) total -= area;`. -/
def negPartInt (a : Int) : Int :=
  if a < 0 then -a else 0

/-- Both components of an integer 2-vector lie in `{-1, 0, 1}`. -/
def inRange2 (p : Int × Int) : Prop :=
  -1 ≤ p.1 ∧ p.1 ≤ 1 ∧ -1 ≤ p.2 ∧ p.2 ≤ 1

instance (p : Int × Int) : Decidable (inRange2 p) := by
  unfold inRange2; infer_instance

/-! ### C9 — orient-annotated edge union-find (`get_parents`,
`get_parents_orient`, `parametrizer.cpp` lines 559–570)

`parent_edge` is a `std::vector<std::pair<int,int>>`; we model it as a total
function `Nat → Nat × Nat` (entry = (parent index, rotation label)).  All
labels the program stores are in `0..3`, hence `Nat` arithmetic with `% 4`
mirrors the C++ `int` computation exactly.  The C++ recursion terminates
because `parent_edge` is a forest; the embedding makes that explicit with a
fuel argument plus a rank function that strictly decreases along parent
links (`WellFormedUF`). -/

/-- State of the edge union-find: index ↦ (parent, rotation label). -/
abbrev UFState := Nat → Nat × Nat

/-- Pure root computation (the value `get_parents` returns), fuel-based. -/
def rootAux (s : UFState) : Nat → Nat → Nat
  | 0, j => j
  | fuel + 1, j => if (s j).1 = j then j else rootAux s fuel (s j).1

/-- Embedding of `get_parents_orient` (lines 567–570): the accumulated rotation along the
path from `j` to its root, combined by addition mod 4; at a root it returns
the stored label unreduced, exactly as the source does. -/
def orientAux (s : UFState) : Nat → Nat → Nat
  | 0, j => (s j).2
  | fuel + 1, j =>
    if (s j).1 = j then (s j).2
    else ((s j).2 + orientAux s fuel (s j).1) % 4

/-- Embedding of `get_parents` (lines 559–565) including its path compression: after the
recursive call on the old parent `p = (s j).1`, the source sets
`parents[j].second = (parents[j].second + parents[parents[j].first].second) % 4`
(reading the post-recursion entries) and then `parents[j].first = k`.  The
embedding returns the root together with the compressed state. -/
def getParents (s : UFState) : Nat → Nat → Nat × UFState
  | 0, j => (j, s)
  | fuel + 1, j =>
    if (s j).1 = j then (j, s)
    else
      ((getParents s fuel (s j).1).1,
       Function.update (getParents s fuel (s j).1).2 j
         ((getParents s fuel (s j).1).1,
          (((getParents s fuel (s j).1).2 j).2
            + ((getParents s fuel (s j).1).2
                (((getParents s fuel (s j).1).2 j).1)).2) % 4))

/-- Well-formedness of a `parent_edge` state, witnessed by a rank function:
parent links strictly decrease the rank (so the structure is a forest), and
every root carries a rotation label that is `0` mod 4.  The program
establishes the label condition at initialization (`parent_edge[i] = (i, 0)`)
and preserves it: merges (`parent_edge[npeid] = (peid, orient)`) only ever
de-root `npeid` and keep `peid` a root with its label untouched. -/
def WellFormedUF (s : UFState) (rk : Nat → Nat) : Prop :=
  (∀ j, (s j).1 ≠ j → rk (s j).1 < rk j) ∧
  (∀ j, (s j).1 = j → (s j).2 % 4 = 0)

/-- Canonical root of `j` (fuel `rk j + 1` always suffices on a well-formed
state, since ranks strictly decrease along parent links). -/
def ufRoot (s : UFState) (rk : Nat → Nat) (j : Nat) : Nat :=
  rootAux s (rk j + 1) j

/-- Canonical accumulated orientation of `j`. -/
def ufOrient (s : UFState) (rk : Nat → Nat) (j : Nat) : Nat :=
  orientAux s (rk j + 1) j

/-- Concrete forest used by the C9 witness: `2 → 1 → 0`, root label 0. -/
def ufWitness : UFState
  | 0 => (0, 0)
  | 1 => (0, 1)
  | 2 => (1, 2)
  | j + 3 => (j + 3, 0)

/-- Rank function for `ufWitness`. -/
def rkWitness : Nat → Nat
  | 0 => 0
  | 1 => 1
  | 2 => 2
  | _ + 3 => 0

/-- Relation between a `parent_edge` state `s` and a state `t` obtained from it
by path compression: every entry is either untouched or, for a non-root node,
rewritten to point directly at its root with the accumulated orientation. -/
def ChangedOK (s : UFState) (rk : Nat → Nat) (t : UFState) (m : Nat) : Prop :=
  t m = s m ∨ ((s m).1 ≠ m ∧ t m = (ufRoot s rk m, ufOrient s rk m % 4))

/-! ### C5 — ComputeOrientationSingularities, per-face body (lines 241–263) -/

/-- Modelled from the spec: `modulo` (field-math.hpp, not under `src/`) is the
mathematical residue in `[0, b)`; on `Int` this is `%` (`Int.emod`). -/
def modulo (a b : Int) : Int := a % b

/-- Per-face orientation index sum (lines 246–254).  `vals k` is the pair
returned by `compat_orientation_extrinsic_index_4` for the corner pair
`(F(k,f), F(k+1 mod 3, f))` (external, field-math.hpp); the loop accumulates
`value.second - value.first`. -/
def faceIndexSum (vals : Fin 3 → Int × Int) : Int :=
  ((vals 0).2 - (vals 0).1) + ((vals 1).2 - (vals 1).1) + ((vals 2).2 - (vals 2).1)

/-- Per-face body of `ComputeOrientationSingularities` (lines 255–261):
first component is the recorded singularity index (if the face is recorded at
all), second is whether the sign of `Q` at `F(0,f)` is flipped.  The source
also accumulates `abs_index`, which it never reads afterwards; omitted. -/
def orientationSingOut (vals : Fin 3 → Int × Int) : Option Int × Bool :=
  let index := faceIndexSum vals
  let index_mod := modulo index 4
  if index_mod = 1 ∨ index_mod = 3 then
    (some index_mod, if 4 ≤ index ∨ index < 0 then true else false)
  else (none, false)

/-! ### C7 — the edge-class merge step of `collapse` (lines 1750–1770) -/

/-- The rotation search of the collapse merge (lines 1753–1757):
`while (orient < 4 && rshift90(diff1, orient) != diff2) orient += 1;`,
unrolled over the four possible rotation values. -/
def orientSearch (d1 d2 : Int × Int) : Nat :=
  if rshift90 d1 0 = d2 then 0
  else if rshift90 d1 1 = d2 then 1
  else if rshift90 d1 2 = d2 then 2
  else if rshift90 d1 3 = d2 then 3
  else 4

/-- The edge-class merge step of `collapse` (lines 1750–1770): when two corner
edges become the same `DEdge` in the quotient graph (`DEdge(nv0, nv1) ==
DEdge(vv0, vv1)`) but have distinct class roots `peid ≠ npeid`, search a
rotation taking `edge_diff[peid]` to `edge_diff[npeid]`; on failure the
source prints a diagnostic and calls `exit(0)` — modelled as `Except.error 0`
whose payload is the process exit status — and on success it links `npeid`
under `peid` with the found rotation. -/
def collapseMergeStep (pe : UFState) (ediff : Nat → Int × Int)
    (peid npeid nv0 nv1 vv0 vv1 : Nat) : Except Nat UFState :=
  if npeid ≠ peid ∧ DEdgeMk nv0 nv1 = DEdgeMk vv0 vv1 then
    if orientSearch (ediff peid) (ediff npeid) = 4 then Except.error 0
    else Except.ok
      (Function.update pe npeid (peid, orientSearch (ediff peid) (ediff npeid)))
  else Except.ok pe

/-- Edge diffs for the C7 failing input: class roots 0 and 1 carry the
clamped diffs (1,0) and (1,1), which are not related by any rotation. -/
def ediffMismatch : Nat → Int × Int
  | 0 => (1, 0)
  | 1 => (1, 1)
  | _ => (0, 0)

/-! ### C4 — the boundary read of `BuildEdgeInfo` (lines 572–611) -/

/-- Component access of an Eigen `Vector3i` at a C++ `int` index: only
0, 1, 2 are in range; any other index is an out-of-range access (undefined
behavior in the source), modelled as `none`. -/
def vec3iAt (v : Int × Int × Int) (k : Int) : Option Int :=
  if k = 0 then some v.1
  else if k = 1 then some v.2.1
  else if k = 2 then some v.2.2
  else none

/-- The read `face_edgeIds[eid / 3][eid % 3]` (line 599), with C++ truncated
division semantics (`Int.tdiv` / `Int.tmod`); `none` = out-of-range access. -/
def faceEdgeIdsAt (fei : List (Int × Int × Int)) (eid : Int) : Option Int :=
  if eid.tdiv 3 < 0 then none
  else
    match fei.get? (eid.tdiv 3).toNat with
    | none => none
    | some v => vec3iAt v (eid.tmod 3)

/-- Lines 597–599 of `BuildEdgeInfo`: for half-edge `current_eid` the code
reads `eid = E2E[current_eid]` and then, unconditionally — before the
`eid != -1` guard that protects only the write — `face_edgeIds[eid/3][eid%3]`. -/
def buildEdgeInfoOppositeRead (E2E : List Int) (fei : List (Int × Int × Int))
    (currentEid : Nat) : Option Int :=
  match E2E.get? currentEid with
  | none => none
  | some eid => faceEdgeIdsAt fei eid

/-! ### C10 — the full `ComputeOrientationSingularities` scan (lines 241–263)

The scan mutates `Q` (it may negate the column at `F(0,f)` of a singular
face), so a second run sees a different `Q`.  We model the `Q` state
abstractly as a rotation offset `r : V → ZMod 4` per vertex (a 4-RoSy cross
is invariant under 90° rotations, and negating the representative vector is
the offset `+2`), and the external `compat_orientation_extrinsic_index_4`
difference (`value.second - value.first`, field-math.hpp, not under `src/`)
as an abstract function `d` of the state.  The claim's theorem assumes only
the spec-modelled property of a 4-RoSy compat index under a 180° flip: the
index difference of a pair changes by 2 mod 4 for each endpoint equal to the
flipped vertex. -/

section OrientScanDefs

variable {V : Type} [DecidableEq V]

/-- 180° sign flip of `Q` at vertex `v` (`Q.col(F(0,f)) = -Q.col(F(0,f))`),
as a rotation-offset update: add 2 (mod 4) at `v`. -/
def flipQ (r : V → ZMod 4) (v : V) : V → ZMod 4 :=
  fun w => if w = v then r w + 2 else r w

/-- The raw orientation index sum of face `f` (lines 246–254) in state `r`:
the three corner pairs are `(F f 0, F f 1)`, `(F f 1, F f 2)`, `(F f 2, F f 0)`. -/
def faceIndexSumQ (d : (V → ZMod 4) → V → V → Int) (F : Nat → Fin 3 → V)
    (r : V → ZMod 4) (f : Nat) : Int :=
  d r (F f 0) (F f 1) + d r (F f 1) (F f 2) + d r (F f 2) (F f 0)

/-- The face loop of `ComputeOrientationSingularities` (lines 245–262) over a
list of face indices: returns the recorded `(face, index mod 4)` entries (the
`singularities` map, in face order) and the final `Q` state. -/
def scanFaces (d : (V → ZMod 4) → V → V → Int) (F : Nat → Fin 3 → V) :
    List Nat → (V → ZMod 4) → List (Nat × Int) × (V → ZMod 4)
  | [], r => ([], r)
  | f :: rest, r =>
    if modulo (faceIndexSumQ d F r f) 4 = 1 ∨ modulo (faceIndexSumQ d F r f) 4 = 3 then
      ((f, modulo (faceIndexSumQ d F r f) 4) ::
        (scanFaces d F rest
          (if 4 ≤ faceIndexSumQ d F r f ∨ faceIndexSumQ d F r f < 0
           then flipQ r (F f 0) else r)).1,
       (scanFaces d F rest
          (if 4 ≤ faceIndexSumQ d F r f ∨ faceIndexSumQ d F r f < 0
           then flipQ r (F f 0) else r)).2)
    else scanFaces d F rest r

/-- The `Q` states reachable from `r0` by a sequence of 180° vertex flips. -/
inductive FlipReach (r0 : V → ZMod 4) : (V → ZMod 4) → Prop
  | refl : FlipReach r0 r0
  | step (r : V → ZMod 4) (v : V) : FlipReach r0 r → FlipReach r0 (flipQ r v)

end OrientScanDefs

/-- Concrete compat-index difference for the C10 witness: the rotation-offset
difference of the endpoints plus a constant holonomy of 3 per pair, so the
witness face has raw index sum 9 — recorded as a singularity of index 1 with
a sign flip (9 is outside `[0, 3]`). -/
def dWitnessQ : (Fin 2 → ZMod 4) → Fin 2 → Fin 2 → Int :=
  fun r i j => ((r j).val : Int) - ((r i).val : Int) + 3

/-- Concrete face table for the C10 witness: one face over vertices 0,1,0. -/
def FWitnessQ : Nat → Fin 3 → Fin 2 :=
  fun _ k => if k = 1 then 1 else 0

/-! ### C8 — FixHoles loop triangulation (lines 1029–1068) -/

/-- Squared Euclidean distance between two integer positions.  The source
compares `(O_compact[v1] - O_compact[v2]).norm()` with strict `<` only;
squaring is strictly monotone on nonnegative reals, so the squared distance
makes the identical comparisons while staying in `Int`. -/
def distSq (a b : Int × Int × Int) : Int :=
  (a.1 - b.1) * (a.1 - b.1) + (a.2.1 - b.2.1) * (a.2.1 - b.2.1)
    + (a.2.2 - b.2.2) * (a.2.2 - b.2.2)

/-- A `std::vector<int>` read; `none`-to-error makes an out-of-range access
(undefined behavior in the source) explicit. -/
def idxE (lv : List Nat) (i : Nat) : Except Unit Nat :=
  match lv.get? i with
  | some v => Except.ok v
  | none => Except.error ()

/-- An `O_compact` read. -/
def idxO (O : List (Int × Int × Int)) (v : Nat) : Except Unit (Int × Int × Int) :=
  match O.get? v with
  | some p => Except.ok p
  | none => Except.error ()

/-- The `v_start` scan (lines 1044–1054):
`for (i = 0; i < loop_edge.size(); ++i)` with
`v2 = loop_vertices[(i + 3) % loop_edge.size()]` — both the bound and the
modulus use the original loop size `les` (`loop_edge` is only cleared on
exit from the while loop), while `loop_vertices` shrinks.  `best = none`
models `min_dis = 1e30`, which exceeds every distance arising here, and the
strict `<` keeps the first minimizer. -/
def argMinGo (O : List (Int × Int × Int)) (lv : List Nat) (les : Nat) :
    Nat → Nat → Option (Int × Nat) → Except Unit (Option (Int × Nat))
  | _, 0, best => Except.ok best
  | i, rem + 1, best => do
    let v1 ← idxE lv i
    let v2 ← idxE lv ((i + 3) % les)
    let p1 ← idxO O v1
    let p2 ← idxO O v2
    argMinGo O lv les (i + 1) rem
      (match best with
       | none => some (distSq p1 p2, i)
       | some (m, vs) =>
         if distSq p1 p2 < m then some (distSq p1 p2, i) else some (m, vs))

/-- Winding fix (lines 1038–1040 and 1059–1062): if the quad's first directed
edge already occurs in `directed_edges`, swap entries 1 and 3. -/
def emitSwap (directed : List (Nat × Nat)) (q : Nat × Nat × Nat × Nat) :
    Nat × Nat × Nat × Nat :=
  if (q.1, q.2.1) ∈ directed then (q.1, q.2.2.2, q.2.2.1, q.2.1) else q

/-- The `while (!loop_vertices.empty())` triangulation of one boundary loop
(lines 1029–1068), parameterized by the frozen original loop size `les`.
At ≤ 4 vertices one (possibly degenerate) quad is emitted and the loop ends;
otherwise the argmin scan picks `v_start`, the quad of the four consecutive
vertices (indices mod the CURRENT size, but `v_start` itself unreduced, as in
the source) is emitted and the two middle vertices are erased (higher index
first, as the source's swap arranges).  `fuel` bounds the iterations; the
size shrinks by 2 each round, so `fuel = lv.length` suffices. -/
def fixHolesTriangulate (O : List (Int × Int × Int)) (directed : List (Nat × Nat))
    (les : Nat) :
    Nat → List Nat → List (Nat × Nat × Nat × Nat) →
      Except Unit (List (Nat × Nat × Nat × Nat))
  | 0, _, acc => Except.ok acc
  | fuel + 1, lv, acc =>
    if lv.isEmpty then Except.ok acc
    else if lv.length ≤ 4 then do
      let a ← idxE lv 0
      let b ← idxE lv 1
      let c ← idxE lv 2
      if lv.length = 4 then do
        let d4 ← idxE lv 3
        Except.ok (acc ++ [emitSwap directed (a, b, c, d4)])
      else
        Except.ok (acc ++ [emitSwap directed (a, b, c, c)])
    else do
      let res ← argMinGo O lv les 0 les none
      match res with
      | none => Except.error ()
      | some (_, vs) => do
        let a ← idxE lv vs
        let b ← idxE lv ((vs + 1) % lv.length)
        let c ← idxE lv ((vs + 2) % lv.length)
        let d4 ← idxE lv ((vs + 3) % lv.length)
        fixHolesTriangulate O directed les fuel
          ((lv.eraseIdx (max ((vs + 1) % lv.length) ((vs + 2) % lv.length))).eraseIdx
            (min ((vs + 1) % lv.length) ((vs + 2) % lv.length)))
          (acc ++ [emitSwap directed (a, b, c, d4)])

/-- Positions for the C8 inputs: all loop vertices at the same point, so
every candidate distance is 0 and the scan keeps the first index. -/
def OAllZero : List (Int × Int × Int) :=
  List.replicate 7 ((0 : Int), (0 : Int), (0 : Int))

/-! ### C6 — cut collection and randomized perturbation of
`BuildIntegerConstraints` (lines 1311–1339), and C1 — the `ComputeMaxFlow`
contract (lines 1351–1367).

`edge_diff` is modelled as a total function `Nat → Int × Int` (bounds are not
at issue here: `variables` has size `2 * edge_diff.size()` by construction,
line 1293); a flat variable index `i` addresses `edge_diff[i / 2][i % 2]`. -/

/-- Flat component access `edge_diff[i / 2][i % 2]`. -/
def flatDiff (ediff : Nat → Int × Int) (i : Nat) : Int :=
  if i % 2 = 0 then (ediff (i / 2)).1 else (ediff (i / 2)).2

/-- Indices of the cut variables: those `i` with `variables[i].second != 0`.
For each such `i` the source inserts `edge_values[i / 2]` into `cuts`
(line 1315); we record the flat indices themselves. -/
def cutIdxs (vars : List Int) : List Nat :=
  (List.range vars.length).filter (fun i => vars.getD i 0 ≠ 0)

/-- The candidate perturbations pushed for variable `i` (lines 1314–1331):
for positive target flow, a variable with positive net sign and headroom
below (`edge_diff > -1`) gets −1 and one with negative net sign and headroom
above (`edge_diff < 1`) gets +1; for negative target flow the pairing swaps;
for zero target flow nothing is pushed.  The two inner `if`s of a branch are
both tested, as in the source (they are mutually exclusive since the net
sign is either positive or negative). -/
def candAt (ediff : Nat → Int × Int) (vars : List Int) (t : Int) (i : Nat) :
    List (Nat × Int) :=
  if vars.getD i 0 ≠ 0 then
    if 0 < t then
      (if 0 < vars.getD i 0 ∧ -1 < flatDiff ediff i then [(i, -1)] else []) ++
      (if vars.getD i 0 < 0 ∧ flatDiff ediff i < 1 then [(i, 1)] else [])
    else if t < 0 then
      (if vars.getD i 0 < 0 ∧ -1 < flatDiff ediff i then [(i, -1)] else []) ++
      (if 0 < vars.getD i 0 ∧ flatDiff ediff i < 1 then [(i, 1)] else [])
    else []
  else []

/-- The list `modified_variables` before the shuffle (lines 1312–1332), in index
order. -/
def modifiedCandidates (ediff : Nat → Int × Int) (vars : List Int) (t : Int) :
    List (Nat × Int) :=
  (List.range vars.length).flatMap (candAt ediff vars t)

/-- One perturbation `edge_diff[i / 2][i % 2] += dv` (line 1338). -/
def setFlat (e : Nat → Int × Int) (i : Nat) (dv : Int) : Nat → Int × Int :=
  Function.update e (i / 2)
    (if i % 2 = 0 then ((e (i / 2)).1 + dv, (e (i / 2)).2)
     else ((e (i / 2)).1, (e (i / 2)).2 + dv))

/-- The perturbation loop (lines 1336–1339): apply the first
`|target_flow| / 2` entries of the shuffled candidate list `mv`. -/
def applyPerturb (ediff : Nat → Int × Int) (mv : List (Nat × Int)) (k : Nat) :
    Nat → Int × Int :=
  (mv.take k).foldl (fun e pr => setFlat e pr.1 pr.2) ediff

/-- The `edge_diff` for the C6 and C1 witnesses: identically `(0, 0)`. -/
def ediffZW : Nat → Int × Int := fun _ => (0, 0)

/-- Net-sign vector for the C6 witness: variable 0 has net sign +1,
variable 1 net sign −1. -/
def varsW : List Int := [1, -1]

/-- One constraint row residual, `sign[0]*edge_diff[index[0]/2][index[0]%2] +
sign[1]*... + sign[2]*...` (lines 1296–1300). -/
def constraintResidual (ediff : Nat → Int × Int) (ind : Fin 3 → Nat)
    (sgn : Fin 3 → Int) : Int :=
  sgn 0 * flatDiff ediff (ind 0) + sgn 1 * flatDiff ediff (ind 1)
    + sgn 2 * flatDiff ediff (ind 2)

/-- Modelled from the spec: `ComputeMaxFlow` (lines 1351–1367) builds `E2F`
and then delegates to `hierarchy.DownsampleEdgeGraph`,
`Optimizer::optimize_integer_constraints` and `hierarchy.UpdateGraphValue`,
none of which are under `src/`.  Spec §4.4 states their contract: on return
every non-singular face satisfies `Σ sign · edge_diff = 0` in its global
orientation frame (both rows `2f` and `2f+1` of its constraints), singular
faces carry their designed residual, and `edge_diff` stays componentwise in
`{-1, 0, 1}`. -/
def maxFlowContract (numF : Nat) (cIdx : Nat → Fin 3 → Nat)
    (cSgn : Nat → Fin 3 → Int) (sing : Nat → Option Int)
    (designed : Nat → Fin 2 → Int) (ediff : Nat → Int × Int) : Prop :=
  (∀ f, f < numF → sing f = none → ∀ j : Fin 2,
      constraintResidual ediff (cIdx (2 * f + j.1)) (cSgn (2 * f + j.1)) = 0) ∧
  (∀ f, f < numF → ∀ s, sing f = some s → ∀ j : Fin 2,
      constraintResidual ediff (cIdx (2 * f + j.1)) (cSgn (2 * f + j.1))
        = designed f j) ∧
  (∀ e, inRange2 (ediff e))

/-! ### C2/C3 — FixFlipAdvance: `ExtractEdgeSet` and `CheckMove`
(lines 1601–1670 and 1809–1866), the diff clamp (lines 754–760) and the
repair-round ladder (lines 1877–1907)

The per-array state of `FixFlipAdvance` is modelled with total functions
(index bounds are not at issue in these claims).  `get_parents` /
`get_parents_orient` path-compress while they read; compression changes
neither roots nor accumulated orientations mod 4 (the C9 development) and
never touches `edge_diff`, so the reads are modelled by the pure
`rootAux` / `orientAux` with the state's recursion bound `rootFuel`. -/

/-- The joint state of the flip-repair engine that `ExtractEdgeSet` and
`CheckMove` read: `edge_diff`, the edge union-find `parent_edge`,
`face_edgeIds` / `face_edgeOrients` (face, corner 0..2), `edge_to_faces`
(per edge-class root), the vertex union-find roots `tree.Parent`, and
`edge_values`. -/
structure FlipState where
  edgeDiff : Nat → Int × Int
  parentEdge : UFState
  rootFuel : Nat
  faceEdgeIds : Nat → Nat → Nat
  faceEdgeOrients : Nat → Nat → Nat
  edgeToFaces : Nat → List Nat
  treeParent : Nat → Nat
  edgeValues : Nat → Nat × Nat

/-- Class root of face `f`'s corner `i` edge:
`get_parents(parent_edge, face_edgeIds[f][i])`. -/
def epid (st : FlipState) (f i : Nat) : Nat :=
  rootAux st.parentEdge st.rootFuel (st.faceEdgeIds f i)

/-- The rotation `(get_parents_orient(parent_edge, eid) + face_edgeOrients[f][i]) % 4`
(lines 1621 and 1826–1827). -/
def eorient (st : FlipState) (f i : Nat) : Nat :=
  (orientAux st.parentEdge st.rootFuel (st.faceEdgeIds f i)
    + st.faceEdgeOrients f i) % 4

/-- Lookup in the `edge_set` map.  The C++ `edge_set` holds exactly the
entries of `edge_change`; each key is inserted at most once (an edge already
in the set is never chosen as escape edge again). -/
def lookupChange : List (Nat × (Int × Int)) → Nat → Option (Int × Int)
  | [], _ => none
  | (k, v) :: rest, e => if k = e then some v else lookupChange rest e

/-- The `total_diff` of one visited face (lines 1617–1626): each corner
contributes `rshift90(edge_diff[pid] - edge_set[pid], orient)`, the
subtraction applying only to edges already in the set. -/
def faceTotalDiff (st : FlipState) (ch : List (Nat × (Int × Int))) (f : Nat) :
    Int × Int :=
  (List.range 3).foldl
    (fun acc i =>
      acc + rshift90
        (match lookupChange ch (epid st f i) with
         | some c => st.edgeDiff (epid st f i) - c
         | none => st.edgeDiff (epid st f i))
        (eorient st f i))
    (0, 0)

/-- Whether corner `i` of face `f` is an escape candidate for `v1`: one
endpoint's vertex class root equals `v1` and the corner's edge class is not
yet in the set — the negation of the skip condition of the `while` of lines
1636–1641. -/
def isEscape (st : FlipState) (v1 : Nat) (ch : List (Nat × (Int × Int)))
    (f i : Nat) : Bool :=
  (st.treeParent (st.edgeValues (epid st f i)).1 == v1
      || st.treeParent (st.edgeValues (epid st f i)).2 == v1)
    && (lookupChange ch (epid st f i)).isNone

/-- Processing of one dequeued face (lines 1612–1668): `some (ch, [])` when
the face already closes (`total_diff == 0`, line 1642); `none` when the
extraction aborts (`edge_change.clear(); return;`) because no escape corner
exists (`next_e == 3`), the escape edge class also sits on a later corner
(lines 1649–1654), or the required change exceeds `edge_len` in a component
(lines 1657–1661); otherwise the escape edge's new diff
`rshift90(total_diff, (4 - orient) % 4)` is appended and the other faces of
that edge class are enqueued (lines 1662–1668).  The source also computes a
`count` of candidates and a `modified` face set, neither of which it ever
reads; omitted. -/
def faceStep (st : FlipState) (v1 el : Nat) (ch : List (Nat × (Int × Int)))
    (f : Nat) : Option (List (Nat × (Int × Int)) × List Nat) :=
  if faceTotalDiff st ch f = (0, 0) then some (ch, [])
  else
    match (List.range 3).find? (fun i => isEscape st v1 ch f i) with
    | none => none
    | some i =>
      if ((List.range 3).filter (fun e => i < e)).any
          (fun e => epid st f e == epid st f i) then none
      else
        if (st.edgeDiff (epid st f i)
              - rshift90 (faceTotalDiff st ch f) ((4 - eorient st f i) % 4)).1.natAbs ≤ el
            ∧ (st.edgeDiff (epid st f i)
              - rshift90 (faceTotalDiff st ch f) ((4 - eorient st f i) % 4)).2.natAbs ≤ el
        then
          some (ch ++ [(epid st f i,
                  rshift90 (faceTotalDiff st ch f) ((4 - eorient st f i) % 4))],
                (st.edgeToFaces (epid st f i)).filter (fun nf => nf ≠ f))
        else none

/-- The BFS queue loop of `ExtractEdgeSet`; the aborted (cleared) result is
`[]`.  The C++ loop terminates because every visit either closes its face or
adds a fresh edge class to the set; the embedding takes explicit fuel, and
the properties proved below hold for every fuel. -/
def extractAux (st : FlipState) (v1 el : Nat) :
    Nat → List Nat → List (Nat × (Int × Int)) → List (Nat × (Int × Int))
  | 0, _, ch => ch
  | _ + 1, [], ch => ch
  | fuel + 1, f :: q, ch =>
    match faceStep st v1 el ch f with
    | none => []
    | some (ch2, nq) => extractAux st v1 el fuel (q ++ nq) ch2

/-- Embedding of `ExtractEdgeSet(v1, v2, pid, edge_change)` (lines 1601–1670): seed the
set with `(pid, edge_diff[pid])` and BFS over the faces of `pid`.  `v2` is
unused in the source body, as here. -/
def extractEdgeSet (st : FlipState) (fuel v1 v2 pid el : Nat) :
    List (Nat × (Int × Int)) :=
  extractAux st v1 el fuel (st.edgeToFaces pid) [(pid, st.edgeDiff pid)]

/-- Negative-area contribution of face `f` (lines 1821–1832): corner 0 and
corner 2 diffs rotated into the face frame,
`area = -diff1[0]*diff2[1] + diff1[1]*diff2[0]`, negatives accumulated. -/
def faceNegArea (st : FlipState) (f : Nat) : Int :=
  negPartInt
    (-(rshift90 (st.edgeDiff (epid st f 0)) (eorient st f 0)).1
        * (rshift90 (st.edgeDiff (epid st f 2)) (eorient st f 2)).2
      + (rshift90 (st.edgeDiff (epid st f 0)) (eorient st f 0)).2
        * (rshift90 (st.edgeDiff (epid st f 2)) (eorient st f 2)).1)

/-- The modified face set: every face incident to a changed edge class
(lines 1816–1819; a `std::set`, so duplicates collapse). -/
def modifiedFacesOf (st : FlipState) (ch : List (Nat × (Int × Int))) :
    List Nat :=
  (ch.flatMap (fun e => st.edgeToFaces e.1)).dedup

/-- Sum of negative areas over a face set. -/
def negAreaSum (st : FlipState) (faces : List Nat) : Int :=
  (faces.map (faceNegArea st)).sum

/-- The applying loop `for (auto& p : edge_change) edge_diff[p.first] -= p.second;`
(lines 1835–1837).  Keys occur at most once in `ch`, so the map-style update
equals the source's iterated subtraction. -/
def applyChanges (ed : Nat → Int × Int) (ch : List (Nat × (Int × Int))) :
    Nat → Int × Int :=
  fun e =>
    match lookupChange ch e with
    | some c => ed e - c
    | none => ed e

/-- The reverting loop `edge_diff[p.first] += p.second` (lines 1861–1863). -/
def revertChanges (ed : Nat → Int × Int) (ch : List (Nat × (Int × Int))) :
    Nat → Int × Int :=
  fun e =>
    match lookupChange ch e with
    | some c => ed e + c
    | none => ed e

/-- Embedding of `CheckMove(v1, v2, pid, check_face)` (lines 1809–1866): extract the edge
set (empty ⇒ `false` and no change); sum negative areas over the modified
faces, apply the changes, re-sum; accept iff the sum strictly decreased or
`check_face` is off, else revert every change.  On acceptance the source
additionally runs `collapse` at the endpoints of every edge whose diff became
zero (lines 1852–1858); `collapse` never writes `edge_diff`, and its
edge-class merges are guarded by `rshift90(diff1, r) == diff2`, so the
rotated corner diffs entering the area formula are unchanged by it — the
embedding therefore tracks `edge_diff` (the state these claims are about)
and leaves the union-find bookkeeping at its call-entry value. -/
def withEdgeDiff (st : FlipState) (ed : Nat → Int × Int) : FlipState :=
  { st with edgeDiff := ed }

def checkMove (st : FlipState) (fuel v1 v2 pid : Nat) (checkFace : Bool)
    (el : Nat) : Bool × FlipState :=
  if (extractEdgeSet st fuel v1 v2 pid el).isEmpty then (false, st)
  else
    if negAreaSum
          (withEdgeDiff st
            (applyChanges st.edgeDiff (extractEdgeSet st fuel v1 v2 pid el)))
          (modifiedFacesOf st (extractEdgeSet st fuel v1 v2 pid el))
        < negAreaSum st (modifiedFacesOf st (extractEdgeSet st fuel v1 v2 pid el))
        ∨ checkFace = false
    then
      (true, withEdgeDiff st
        (applyChanges st.edgeDiff (extractEdgeSet st fuel v1 v2 pid el)))
    else
      (false, withEdgeDiff st
        (revertChanges
          (applyChanges st.edgeDiff (extractEdgeSet st fuel v1 v2 pid el))
          (extractEdgeSet st fuel v1 v2 pid el)))

/-- The clamp of §4.3 step 1 (`ComputeIndexMap`, lines 754–760):
`if (abs(edge_diff[i][j]) > 1) edge_diff[i][j] /= abs(edge_diff[i][j]);`
with C++ truncated integer division (`Int.tdiv`). -/
def clampDiff (x : Int) : Int :=
  if 1 < (if x < 0 then -x else x) then x.tdiv (if x < 0 then -x else x) else x

/-- The `edge_len` ladder of the repair rounds (lines 1877–1907):
`for (; edge_len < 2; edge_len += 1) { ...sweeps...; if (edge_len == 1)
{ ...freeze...; break; } }`.  Returns the `edge_len` values whose round body
executes; the sweeps themselves do not affect which rounds run. -/
def repairRoundsAux : Nat → Nat → List Nat
  | 0, _ => []
  | fuel + 1, el =>
    if el < 2 then
      el :: (if el = 1 then [] else repairRoundsAux fuel (el + 1))
    else []

/-- The rounds actually executed, starting from `edge_len = 1`. -/
def repairRounds : List Nat := repairRoundsAux 4 1

/-- All edge diffs of a state lie componentwise in `{-1, 0, 1}`. -/
def InRangeState (st : FlipState) : Prop :=
  ∀ e, inRange2 (st.edgeDiff e)

/-- Concrete state demonstrating what an `edge_len = 2` round would do if it
ran: two faces sharing edge 1 (face 0 = edges 0,1,2; face 1 = edges 1,3,4),
all orientations 0, every diff componentwise in `{-1,0,1}`.  Starting
`CheckMove(1, 2, 0, check_face = 1)` zeroes edge 0, pushes the imbalance
through edge 1 and then out through edge 3, whose new value `(2, 0)` passes
the `edge_len = 2` guard and leaves the clamp range, while the negative-area
sum drops from 2 to 0 so the move is accepted. -/
def stX : FlipState where
  edgeDiff := fun e =>
    if e = 0 then (0, -1)
    else if e = 1 then (0, 1)
    else if e = 2 then (1, 0)
    else if e = 3 then (1, 0)
    else if e = 4 then (-1, 0)
    else (0, 0)
  parentEdge := fun i => (i, 0)
  rootFuel := 1
  faceEdgeIds := fun f i =>
    if f = 0 then (if i = 0 then 0 else if i = 1 then 1 else 2)
    else if f = 1 then (if i = 0 then 1 else if i = 1 then 3 else 4)
    else 0
  faceEdgeOrients := fun _ _ => 0
  edgeToFaces := fun e =>
    if e = 0 then [0]
    else if e = 1 then [0, 1]
    else if e = 2 then [0]
    else if e = 3 then [1]
    else if e = 4 then [1]
    else []
  treeParent := fun v => v
  edgeValues := fun e =>
    if e = 0 then (5, 6)
    else if e = 1 then (1, 2)
    else if e = 2 then (3, 4)
    else if e = 3 then (1, 7)
    else if e = 4 then (8, 9)
    else (0, 0)

/-- Concrete state for the C2 witness. -/
def stW : FlipState where
  edgeDiff := fun _ => (0, 0)
  parentEdge := fun i => (i, 0)
  rootFuel := 1
  faceEdgeIds := fun _ _ => 0
  faceEdgeOrients := fun _ _ => 0
  edgeToFaces := fun _ => []
  treeParent := fun v => v
  edgeValues := fun _ => (0, 1)

/-! ### Theorem section -/

section UnionFindLemmas

variable {s : UFState} {rk : Nat → Nat}

theorem rootAux_fuel (hwf : WellFormedUF s rk) :
    ∀ n f j, rk j < n → rk j < f → rootAux s f j = ufRoot s rk j := by
  intro n
  induction n with
  | zero => intro f j h _; omega
  | succ n ih =>
    intro f j hn hf
    cases f with
    | zero => omega
    | succ f =>
      by_cases h : (s j).1 = j
      · simp [rootAux, ufRoot, h]
      · have hlt : rk (s j).1 < rk j := hwf.1 j h
        have h1 : rootAux s (f + 1) j = rootAux s f (s j).1 := by
          simp [rootAux, h]
        have h2 : ufRoot s rk j = rootAux s (rk j) (s j).1 := by
          unfold ufRoot
          simp [rootAux, h]
        rw [h1, h2, ih f (s j).1 (by omega) (by omega),
          ih (rk j) (s j).1 (by omega) (by omega)]

theorem orientAux_fuel (hwf : WellFormedUF s rk) :
    ∀ n f j, rk j < n → rk j < f → orientAux s f j = ufOrient s rk j := by
  intro n
  induction n with
  | zero => intro f j h _; omega
  | succ n ih =>
    intro f j hn hf
    cases f with
    | zero => omega
    | succ f =>
      by_cases h : (s j).1 = j
      · simp [orientAux, ufOrient, h]
      · have hlt : rk (s j).1 < rk j := hwf.1 j h
        have h1 : orientAux s (f + 1) j = ((s j).2 + orientAux s f (s j).1) % 4 := by
          simp [orientAux, h]
        have h2 : ufOrient s rk j = ((s j).2 + orientAux s (rk j) (s j).1) % 4 := by
          unfold ufOrient
          simp [orientAux, h]
        rw [h1, h2, ih f (s j).1 (by omega) (by omega),
          ih (rk j) (s j).1 (by omega) (by omega)]

theorem ufRoot_self {j : Nat} (h : (s j).1 = j) : ufRoot s rk j = j := by
  simp [ufRoot, rootAux, h]

theorem ufRoot_step (hwf : WellFormedUF s rk) {j : Nat} (h : (s j).1 ≠ j) :
    ufRoot s rk j = ufRoot s rk ((s j).1) := by
  have hlt : rk (s j).1 < rk j := hwf.1 j h
  have h2 : ufRoot s rk j = rootAux s (rk j) (s j).1 := by
    unfold ufRoot
    simp [rootAux, h]
  rw [h2, rootAux_fuel hwf (rk j) (rk j) (s j).1 hlt hlt]

theorem ufOrient_self {j : Nat} (h : (s j).1 = j) : ufOrient s rk j = (s j).2 := by
  simp [ufOrient, orientAux, h]

theorem ufOrient_step (hwf : WellFormedUF s rk) {j : Nat} (h : (s j).1 ≠ j) :
    ufOrient s rk j = ((s j).2 + ufOrient s rk ((s j).1)) % 4 := by
  have hlt : rk (s j).1 < rk j := hwf.1 j h
  have h2 : ufOrient s rk j = ((s j).2 + orientAux s (rk j) (s j).1) % 4 := by
    unfold ufOrient
    simp [orientAux, h]
  rw [h2, orientAux_fuel hwf (rk j) (rk j) (s j).1 hlt hlt]

theorem ufRoot_isRoot_aux (hwf : WellFormedUF s rk) :
    ∀ n j, rk j < n → (s (ufRoot s rk j)).1 = ufRoot s rk j := by
  intro n
  induction n with
  | zero => intro j h; omega
  | succ n ih =>
    intro j hn
    by_cases h : (s j).1 = j
    · rw [ufRoot_self h]; exact h
    · have hlt : rk (s j).1 < rk j := hwf.1 j h
      rw [ufRoot_step hwf h]
      exact ih (s j).1 (by omega)

theorem ufRoot_isRoot (hwf : WellFormedUF s rk) (j : Nat) :
    (s (ufRoot s rk j)).1 = ufRoot s rk j :=
  ufRoot_isRoot_aux hwf (rk j + 1) j (Nat.lt_succ_self _)

theorem ufRoot_rank_aux (hwf : WellFormedUF s rk) :
    ∀ n j, rk j < n → ufRoot s rk j = j ∨ rk (ufRoot s rk j) < rk j := by
  intro n
  induction n with
  | zero => intro j h; omega
  | succ n ih =>
    intro j hn
    by_cases h : (s j).1 = j
    · left; exact ufRoot_self h
    · have hlt : rk (s j).1 < rk j := hwf.1 j h
      rw [ufRoot_step hwf h]
      rcases ih (s j).1 (by omega) with h1 | h1
      · right; rw [h1]; exact hlt
      · right; omega

theorem ufRoot_ne (hwf : WellFormedUF s rk) {j : Nat} (h : (s j).1 ≠ j) :
    ufRoot s rk j ≠ j := by
  have hlt : rk (s j).1 < rk j := hwf.1 j h
  rw [ufRoot_step hwf h]
  rcases ufRoot_rank_aux hwf (rk (s j).1 + 1) (s j).1 (Nat.lt_succ_self _) with h1 | h1
  · rw [h1]; intro he; omega
  · intro he; rw [he] at h1; omega

theorem getParents_spec (hwf : WellFormedUF s rk) :
    ∀ f j, rk j < f →
      (getParents s f j).1 = ufRoot s rk j ∧
      (∀ m, rk j ≤ rk m → m ≠ j → (getParents s f j).2 m = s m) ∧
      (∀ m, ChangedOK s rk (getParents s f j).2 m) ∧
      ((s j).1 ≠ j →
        (getParents s f j).2 j = (ufRoot s rk j, ufOrient s rk j % 4)) ∧
      ((s j).1 = j → (getParents s f j).2 = s) ∧
      WellFormedUF (getParents s f j).2 rk := by
  intro f
  induction f with
  | zero => intro j h; omega
  | succ f ih =>
    intro j hf
    by_cases h : (s j).1 = j
    · have hg : getParents s (f + 1) j = (j, s) := by simp [getParents, h]
      rw [hg]
      refine ⟨(ufRoot_self h).symm, fun m _ _ => rfl, fun m => Or.inl rfl,
        fun hc => absurd h hc, fun _ => rfl, hwf⟩
    · have hp : rk (s j).1 < rk j := hwf.1 j h
      have hpj : (s j).1 ≠ j := h
      have hjp : j ≠ (s j).1 := by intro he; rw [← he] at hp; omega
      obtain ⟨ih1, ih2, ih3, ih4, ih5, ih6⟩ := ih (s j).1 (by omega)
      have hs1j : (getParents s f (s j).1).2 j = s j :=
        ih2 j (by omega) hjp
      have hg : getParents s (f + 1) j =
          ((getParents s f (s j).1).1,
           Function.update (getParents s f (s j).1).2 j
             ((getParents s f (s j).1).1,
              (((getParents s f (s j).1).2 j).2
                + ((getParents s f (s j).1).2
                    (((getParents s f (s j).1).2 j).1)).2) % 4)) := by
        simp [getParents, h]
      have hroot : (getParents s f (s j).1).1 = ufRoot s rk j := by
        rw [ih1, ufRoot_step hwf h]
      have hlabelp : ((getParents s f (s j).1).2 ((s j).1)).2 % 4
          = ufOrient s rk ((s j).1) % 4 := by
        by_cases hp' : (s (s j).1).1 = (s j).1
        · rw [ih5 hp', ufOrient_self hp']
        · rw [ih4 hp']
          simp [Nat.mod_mod_of_dvd]
      have hlabel : (((getParents s f (s j).1).2 j).2
            + ((getParents s f (s j).1).2
                (((getParents s f (s j).1).2 j).1)).2) % 4
          = ufOrient s rk j % 4 := by
        rw [hs1j, ufOrient_step hwf h]
        have hx := hlabelp
        omega
      rw [hg]
      dsimp only
      refine ⟨hroot, ?_, ?_, ?_, ?_, ?_⟩
      · intro m hm hmj
        rw [Function.update_noteq hmj]
        exact ih2 m (by omega) (by intro he; rw [he] at hm; omega)
      · intro m
        by_cases hmj : m = j
        · subst hmj
          right
          exact ⟨h, by rw [Function.update_same, hroot, hlabel]⟩
        · have h3 := ih3 m
          unfold ChangedOK at h3 ⊢
          rw [Function.update_noteq hmj]
          exact h3
      · intro _
        rw [Function.update_same, hroot, hlabel]
      · intro hc; exact absurd hc h
      · constructor
        · intro m hm
          by_cases hmj : m = j
          · subst hmj
            rw [Function.update_same] at hm ⊢
            dsimp only at hm ⊢
            rw [hroot] at hm ⊢
            rcases ufRoot_rank_aux hwf (rk m + 1) m (Nat.lt_succ_self _) with h1 | h1
            · exact absurd h1 hm
            · exact h1
          · rw [Function.update_noteq hmj] at hm ⊢
            exact ih6.1 m hm
        · intro m hm
          by_cases hmj : m = j
          · subst hmj
            rw [Function.update_same] at hm
            dsimp only at hm
            rw [hroot] at hm
            exact absurd hm (ufRoot_ne hwf h)
          · rw [Function.update_noteq hmj] at hm ⊢
            exact ih6.2 m hm

theorem roots_preserved (hwf : WellFormedUF s rk) {t : UFState}
    (hwt : WellFormedUF t rk) (hch : ∀ m, ChangedOK s rk t m) :
    ∀ n m, rk m < n → ufRoot t rk m = ufRoot s rk m := by
  intro n
  induction n with
  | zero => intro m h; omega
  | succ n ih =>
    intro m hn
    rcases hch m with hc | ⟨hne, hc⟩
    · by_cases h : (s m).1 = m
      · rw [ufRoot_self (by rw [hc]; exact h), ufRoot_self h]
      · have hlt : rk (s m).1 < rk m := hwf.1 m h
        have ht : (t m).1 ≠ m := by rw [hc]; exact h
        rw [ufRoot_step hwt ht, ufRoot_step hwf h, hc]
        exact ih (s m).1 (by omega)
    · have hrne : ufRoot s rk m ≠ m := ufRoot_ne hwf hne
      have ht1 : (t m).1 = ufRoot s rk m := by rw [hc]
      have htne : (t m).1 ≠ m := by rw [ht1]; exact hrne
      rw [ufRoot_step hwt htne, ht1]
      have hr : (s (ufRoot s rk m)).1 = ufRoot s rk m := ufRoot_isRoot hwf m
      rcases hch (ufRoot s rk m) with hc2 | ⟨hne2, _⟩
      · exact ufRoot_self (by rw [hc2]; exact hr)
      · exact absurd hr hne2

theorem orients_preserved (hwf : WellFormedUF s rk) {t : UFState}
    (hwt : WellFormedUF t rk) (hch : ∀ m, ChangedOK s rk t m) :
    ∀ n m, rk m < n → ufOrient t rk m % 4 = ufOrient s rk m % 4 := by
  intro n
  induction n with
  | zero => intro m h; omega
  | succ n ih =>
    intro m hn
    rcases hch m with hc | ⟨hne, hc⟩
    · by_cases h : (s m).1 = m
      · rw [ufOrient_self (by rw [hc]; exact h), ufOrient_self h, hc]
      · have hlt : rk (s m).1 < rk m := hwf.1 m h
        have ht : (t m).1 ≠ m := by rw [hc]; exact h
        rw [ufOrient_step hwt ht, ufOrient_step hwf h, hc]
        have hih := ih (s m).1 (by omega)
        omega
    · have hrne : ufRoot s rk m ≠ m := ufRoot_ne hwf hne
      have ht1 : (t m).1 = ufRoot s rk m := by rw [hc]
      have htne : (t m).1 ≠ m := by rw [ht1]; exact hrne
      have hr : (s (ufRoot s rk m)).1 = ufRoot s rk m := ufRoot_isRoot hwf m
      have htr : t (ufRoot s rk m) = s (ufRoot s rk m) := by
        rcases hch (ufRoot s rk m) with hc2 | ⟨hne2, _⟩
        · exact hc2
        · exact absurd hr hne2
      have hzr : (s (ufRoot s rk m)).2 % 4 = 0 := hwf.2 _ hr
      have hor : ufOrient t rk (ufRoot s rk m) = (s (ufRoot s rk m)).2 := by
        rw [ufOrient_self (by rw [htr]; exact hr), htr]
      rw [ufOrient_step hwt htne, ht1, hor, hc]
      have hmod := ufOrient_step hwf hne
      omega

end UnionFindLemmas

/-- C9: path compression preserves the composed rotation of the
orient-annotated edge union-find.  For every well-formed `parent_edge` forest
(parent links strictly decrease a rank bounded by `N`; root labels are 0
mod 4, as the program maintains) and every index `j`, `get_parents` returns
the root `j` had before compression, compression changes no index's root, and
for every index `k` the value of `get_parents_orient` mod 4 is unchanged. -/
theorem get_parents_compression_preserves
    (s : UFState) (rk : Nat → Nat) (N j : Nat)
    (hwf : WellFormedUF s rk) (hN : ∀ i, rk i < N) :
    (getParents s N j).1 = rootAux s N j ∧
    (∀ m, rootAux (getParents s N j).2 N m = rootAux s N m) ∧
    (∀ m, orientAux (getParents s N j).2 N m % 4 = orientAux s N m % 4) := by
  obtain ⟨g1, _, g3, _, _, g6⟩ := getParents_spec hwf N j (hN j)
  refine ⟨?_, ?_, ?_⟩
  · rw [g1, rootAux_fuel hwf N N j (hN j) (hN j)]
  · intro m
    rw [rootAux_fuel g6 N N m (hN m) (hN m),
      rootAux_fuel hwf N N m (hN m) (hN m)]
    exact roots_preserved hwf g6 g3 N m (hN m)
  · intro m
    rw [orientAux_fuel g6 N N m (hN m) (hN m),
      orientAux_fuel hwf N N m (hN m) (hN m)]
    exact orients_preserved hwf g6 g3 N m (hN m)

/-- Witness for C9: the concrete chain `2 → 1 → 0` with labels 1 and 2.
Compressing from index 2 keeps root 0 and keeps every accumulated
orientation mod 4. -/
theorem get_parents_compression_preserves_witness :
    WellFormedUF ufWitness rkWitness ∧
    (getParents ufWitness 3 2).1 = rootAux ufWitness 3 2 ∧
    rootAux (getParents ufWitness 3 2).2 3 2 = rootAux ufWitness 3 2 ∧
    orientAux (getParents ufWitness 3 2).2 3 2 % 4
      = orientAux ufWitness 3 2 % 4 := by
  have hwf : WellFormedUF ufWitness rkWitness := by
    constructor
    · intro j
      match j with
      | 0 => simp [ufWitness, rkWitness]
      | 1 => simp [ufWitness, rkWitness]
      | 2 => simp [ufWitness, rkWitness]
      | j + 3 => simp [ufWitness]
    · intro j
      match j with
      | 0 => simp [ufWitness]
      | 1 => simp [ufWitness]
      | 2 => simp [ufWitness]
      | j + 3 => simp [ufWitness]
  have hN : ∀ i, rkWitness i < 3 := by
    intro i
    match i with
    | 0 => simp [rkWitness]
    | 1 => simp [rkWitness]
    | 2 => simp [rkWitness]
    | i + 3 => simp [rkWitness]
  obtain ⟨h1, h2, h3⟩ := get_parents_compression_preserves ufWitness rkWitness 3 2 hwf hN
  exact ⟨hwf, h1, h2 2, h3 2⟩

/-- C5: `ComputeOrientationSingularities` records a face, with value equal to
the sum of the three per-edge 4-way index differences taken mod 4, exactly
when that sum mod 4 is 1 or 3; and it flips the sign of `Q` at `F(0,f)`
exactly when the raw (unreduced) sum lies outside `[0,3]` for such a
singular face. -/
theorem computeOrientationSingularities_classification (vals : Fin 3 → Int × Int) :
    ((orientationSingOut vals).1 =
      if faceIndexSum vals % 4 = 1 ∨ faceIndexSum vals % 4 = 3
      then some (faceIndexSum vals % 4) else none) ∧
    ((orientationSingOut vals).2 = true ↔
      ((faceIndexSum vals % 4 = 1 ∨ faceIndexSum vals % 4 = 3) ∧
       (faceIndexSum vals < 0 ∨ 4 ≤ faceIndexSum vals))) := by
  unfold orientationSingOut modulo
  constructor
  · by_cases h : faceIndexSum vals % 4 = 1 ∨ faceIndexSum vals % 4 = 3 <;>
      simp [h]
  · by_cases h : faceIndexSum vals % 4 = 1 ∨ faceIndexSum vals % 4 = 3
    · by_cases h2 : 4 ≤ faceIndexSum vals ∨ faceIndexSum vals < 0 <;>
        simp [h, h2] <;> omega
    · simp [h]

/-- C7 (evaluation of the code at the failing input): edge-class roots 0 and 1
carry diffs (1,0) and (1,1); their faces' corner edges have collapsed to the
same DEdge (2,3).  No rotation `r` relates the two diffs, and the merge step
then terminates the process via `exit(0)` — so the process exit status is 0,
not nonzero as the claim requires. -/
theorem collapse_orientation_mismatch_exit_code :
    (∀ r : Fin 4, rshift90 (ediffMismatch 0) r.1 ≠ ediffMismatch 1) ∧
    collapseMergeStep (fun i => (i, 0)) ediffMismatch 0 1 2 3 2 3
      = Except.error 0 := by
  constructor
  · decide
  · rfl

/-- C4 (evaluation of the code at the failing input): for a boundary
half-edge — here half-edge 0 of a single triangle whose `E2E` entries are all
−1 and whose `face_edgeIds` row is freshly initialized to (−1,−1,−1) — the
unconditional read of line 599 addresses row `eid/3 = 0` (which exists) at
component `eid%3 = −1`, outside the valid range {0,1,2}; an in-range read on
the same row (component 2) succeeds, isolating the fault to the component
index. -/
theorem buildEdgeInfo_boundary_out_of_range :
    buildEdgeInfoOppositeRead [-1, -1, -1] [(-1, -1, -1)] 0 = none ∧
    Int.tdiv (-1) 3 = 0 ∧ Int.tmod (-1) 3 = -1 ∧
    faceEdgeIdsAt [(-1, -1, -1)] 2 = some (-1) := by
  refine ⟨rfl, rfl, rfl, rfl⟩

section OrientScanLemmas

variable {V : Type} [DecidableEq V]
variable {d : (V → ZMod 4) → V → V → Int} {F : Nat → Fin 3 → V}

theorem faceIndexSumQ_flip
    (Hd : ∀ (r : V → ZMod 4) (v i j : V),
      d (flipQ r v) i j % 4
        = (d r i j + (if i = v then 2 else 0) + (if j = v then 2 else 0)) % 4)
    (r : V → ZMod 4) (v : V) (f : Nat) :
    faceIndexSumQ d F (flipQ r v) f % 4 = faceIndexSumQ d F r f % 4 := by
  have h01 := Hd r v (F f 0) (F f 1)
  have h12 := Hd r v (F f 1) (F f 2)
  have h20 := Hd r v (F f 2) (F f 0)
  unfold faceIndexSumQ
  split_ifs at h01 h12 h20 <;> omega

theorem flipBranchReach {r0 r : V → ZMod 4} (hr : FlipReach r0 r) (c : Prop)
    [Decidable c] (v : V) : FlipReach r0 (if c then flipQ r v else r) := by
  split
  · exact FlipReach.step r v hr
  · exact hr

theorem scanFaces_reach {r0 : V → ZMod 4} :
    ∀ (fs : List Nat) (r : V → ZMod 4), FlipReach r0 r →
      FlipReach r0 (scanFaces d F fs r).2 := by
  intro fs
  induction fs with
  | nil => intro r hr; exact hr
  | cons f rest ih =>
    intro r hr
    unfold scanFaces
    by_cases hc : modulo (faceIndexSumQ d F r f) 4 = 1 ∨
        modulo (faceIndexSumQ d F r f) 4 = 3
    · rw [if_pos hc]
      exact ih _ (flipBranchReach hr _ _)
    · rw [if_neg hc]
      exact ih r hr

theorem faceIndexSumQ_reach
    (Hd : ∀ (r : V → ZMod 4) (v i j : V),
      d (flipQ r v) i j % 4
        = (d r i j + (if i = v then 2 else 0) + (if j = v then 2 else 0)) % 4)
    {r0 r : V → ZMod 4} (hr : FlipReach r0 r) (f : Nat) :
    faceIndexSumQ d F r f % 4 = faceIndexSumQ d F r0 f % 4 := by
  induction hr with
  | refl => rfl
  | step r v _ ih => rw [faceIndexSumQ_flip Hd r v f]; exact ih

theorem scanFaces_map_eq
    (Hd : ∀ (r : V → ZMod 4) (v i j : V),
      d (flipQ r v) i j % 4
        = (d r i j + (if i = v then 2 else 0) + (if j = v then 2 else 0)) % 4)
    {r0 : V → ZMod 4} :
    ∀ (fs : List Nat) (r r' : V → ZMod 4), FlipReach r0 r → FlipReach r0 r' →
      (scanFaces d F fs r).1 = (scanFaces d F fs r').1 := by
  intro fs
  induction fs with
  | nil => intro r r' _ _; rfl
  | cons f rest ih =>
    intro r r' hr hr'
    have hsum : faceIndexSumQ d F r f % 4 = faceIndexSumQ d F r' f % 4 := by
      rw [faceIndexSumQ_reach Hd hr f, faceIndexSumQ_reach Hd hr' f]
    unfold scanFaces
    by_cases hc : faceIndexSumQ d F r f % 4 = 1 ∨ faceIndexSumQ d F r f % 4 = 3
    · have hc' : faceIndexSumQ d F r' f % 4 = 1 ∨
          faceIndexSumQ d F r' f % 4 = 3 := by
        rw [← hsum]; exact hc
      rw [if_pos (show modulo (faceIndexSumQ d F r f) 4 = 1 ∨
            modulo (faceIndexSumQ d F r f) 4 = 3 from hc),
          if_pos (show modulo (faceIndexSumQ d F r' f) 4 = 1 ∨
            modulo (faceIndexSumQ d F r' f) 4 = 3 from hc')]
      dsimp only
      rw [show modulo (faceIndexSumQ d F r f) 4
            = modulo (faceIndexSumQ d F r' f) 4 from hsum]
      congr 1
      exact ih _ _ (flipBranchReach hr _ _) (flipBranchReach hr' _ _)
    · have hc' : ¬(faceIndexSumQ d F r' f % 4 = 1 ∨
          faceIndexSumQ d F r' f % 4 = 3) := by
        rw [← hsum]; exact hc
      rw [if_neg (show ¬(modulo (faceIndexSumQ d F r f) 4 = 1 ∨
            modulo (faceIndexSumQ d F r f) 4 = 3) from hc),
          if_neg (show ¬(modulo (faceIndexSumQ d F r' f) 4 = 1 ∨
            modulo (faceIndexSumQ d F r' f) 4 = 3) from hc')]
      exact ih _ _ hr hr'

end OrientScanLemmas

/-- C10: `ComputeOrientationSingularities` is idempotent on its output map.
A second run started on the `Q` state the first run left behind produces the
identical `singularities` entries (same faces, same index values mod 4): a
180° flip at any vertex changes every face's raw index sum by a multiple of
4 (two incidences in the corner-pair cycle, 2 each, mod 4), and recorded
entries depend only on the sum mod 4.  `Hd` is the spec-modelled behavior of
the 4-RoSy compat index under a 180° flip (field-math.hpp is not under
`src/`). -/
theorem computeOrientationSingularities_idempotent
    {V : Type} [DecidableEq V] (d : (V → ZMod 4) → V → V → Int)
    (F : Nat → Fin 3 → V) (m : Nat) (r : V → ZMod 4)
    (Hd : ∀ (r : V → ZMod 4) (v i j : V),
      d (flipQ r v) i j % 4
        = (d r i j + (if i = v then 2 else 0) + (if j = v then 2 else 0)) % 4) :
    (scanFaces d F (List.range m) ((scanFaces d F (List.range m) r).2)).1
      = (scanFaces d F (List.range m) r).1 :=
  scanFaces_map_eq Hd (List.range m) _ r
    (scanFaces_reach (List.range m) r FlipReach.refl) FlipReach.refl

/-- Witness for C10: one face over two vertices with the concrete
rotation-offset compat index; the flip hypothesis is checked by evaluation
over the finite state space. -/
theorem computeOrientationSingularities_idempotent_witness :
    (scanFaces dWitnessQ FWitnessQ (List.range 1) (fun _ => 0)).1 = [(0, 1)] ∧
    (scanFaces dWitnessQ FWitnessQ (List.range 1)
        ((scanFaces dWitnessQ FWitnessQ (List.range 1) (fun _ => 0)).2)).1
      = (scanFaces dWitnessQ FWitnessQ (List.range 1) (fun _ => 0)).1 :=
  ⟨by decide,
   computeOrientationSingularities_idempotent dWitnessQ FWitnessQ 1 (fun _ => 0)
     (by decide)⟩

/-- C8 (evaluation of the code at the failing input): the triangulation greedy
loop indexes `loop_vertices` with bound and modulus `loop_edge.size()` — the
original loop length — while `loop_vertices` shrinks.  For a 7-vertex loop
(all positions equal) the second round scans `i = 0..6` over the remaining 5
vertices: at `i = 2`, index `(2+3) % 7 = 5` is out of range, an undefined
read the claim's "3 positions further along the current loop" excludes.
Loops of 5, 4 and 3 vertices (which never re-enter the scan with a stale
size) behave exactly as the claim says: a quad then a degenerate quad, one
quad, one degenerate quad. -/
theorem fixHoles_triangulation_stale_modulus :
    fixHolesTriangulate OAllZero [] 7 7 [0, 1, 2, 3, 4, 5, 6] [] = Except.error () ∧
    fixHolesTriangulate OAllZero [] 5 5 [0, 1, 2, 3, 4] []
      = Except.ok [(0, 1, 2, 3), (0, 3, 4, 4)] ∧
    fixHolesTriangulate OAllZero [] 4 4 [0, 1, 2, 3] [] = Except.ok [(0, 1, 2, 3)] ∧
    fixHolesTriangulate OAllZero [] 3 3 [0, 1, 2] [] = Except.ok [(0, 1, 2, 2)] := by
  refine ⟨rfl, rfl, rfl, rfl⟩

theorem mem_candAt {ediff : Nat → Int × Int} {vars : List Int} {t : Int}
    {i : Nat} {pr : Nat × Int} (hmem : pr ∈ candAt ediff vars t i) :
    pr.1 = i ∧ vars.getD i 0 ≠ 0 ∧
    ((pr.2 = -1 ∧ -1 < flatDiff ediff i) ∨ (pr.2 = 1 ∧ flatDiff ediff i < 1)) ∧
    (0 < t →
      ((0 < vars.getD i 0 ∧ pr.2 = -1) ∨ (vars.getD i 0 < 0 ∧ pr.2 = 1))) := by
  unfold candAt at hmem
  split_ifs at hmem with h0 h1 h2 h3 h4 h5 h6 h7 <;>
    simp only [List.mem_append, List.mem_singleton, List.not_mem_nil,
      or_false, false_or] at hmem <;>
    rcases hmem with rfl | rfl <;> exact ⟨rfl, h0, by omega, by omega⟩

theorem candAt_keys_nodup (ediff : Nat → Int × Int) (vars : List Int)
    (t : Int) (i : Nat) : ((candAt ediff vars t i).map Prod.fst).Nodup := by
  unfold candAt
  split_ifs <;> simp_all <;> omega

theorem flatMap_keys_nodup (f : Nat → List (Nat × Int))
    (hf : ∀ i pr, pr ∈ f i → pr.1 = i)
    (hnd : ∀ i, ((f i).map Prod.fst).Nodup) :
    ∀ l : List Nat, l.Nodup → ((l.flatMap f).map Prod.fst).Nodup := by
  intro l
  induction l with
  | nil => simp
  | cons a l ih =>
    intro h
    obtain ⟨ha, hl⟩ := List.nodup_cons.mp h
    rw [List.flatMap_cons, List.map_append]
    refine List.Nodup.append (hnd a) (ih hl) ?_
    intro x hx1 hx2
    obtain ⟨p1, hp1, he1⟩ := List.mem_map.mp hx1
    obtain ⟨p2, hp2, he2⟩ := List.mem_map.mp hx2
    obtain ⟨i2, hi2, hpi2⟩ := List.mem_flatMap.mp hp2
    have hxa : x = a := he1 ▸ hf a p1 hp1
    have hxi : x = i2 := he2 ▸ hf i2 p2 hpi2
    rw [hxa] at hxi
    rw [← hxi] at hi2
    exact ha hi2

theorem flatDiff_setFlat (e : Nat → Int × Int) (i : Nat) (dv : Int) (j : Nat) :
    flatDiff (setFlat e i dv) j
      = if j = i then flatDiff e i + dv else flatDiff e j := by
  unfold flatDiff setFlat
  by_cases hji : j = i
  · subst hji
    rw [if_pos rfl, Function.update_same]
    by_cases h2 : j % 2 = 0 <;> simp [h2]
  · rw [if_neg hji]
    by_cases hdiv : j / 2 = i / 2
    · have h2 : ¬(j % 2 = i % 2) := by omega
      rw [hdiv, Function.update_same]
      by_cases hj2 : j % 2 = 0
      · have hi2 : ¬(i % 2 = 0) := by omega
        simp [hj2, hi2, hdiv]
      · have hi2 : i % 2 = 0 := by omega
        simp [hj2, hi2, hdiv]
    · rw [Function.update_noteq hdiv]

theorem foldl_setFlat_spec (sel : List (Nat × Int)) :
    ∀ (e : Nat → Int × Int), ((sel.map Prod.fst).Nodup) →
      (∀ pr ∈ sel,
        flatDiff (sel.foldl (fun a pr => setFlat a pr.1 pr.2) e) pr.1
          = flatDiff e pr.1 + pr.2) ∧
      (∀ j, j ∉ sel.map Prod.fst →
        flatDiff (sel.foldl (fun a pr => setFlat a pr.1 pr.2) e) j
          = flatDiff e j) := by
  induction sel with
  | nil => intro e _; exact ⟨by simp, by simp⟩
  | cons hd tl ih =>
    intro e hnd
    rw [List.map_cons] at hnd
    obtain ⟨hni, hnd'⟩ := List.nodup_cons.mp hnd
    obtain ⟨ih1, ih2⟩ := ih (setFlat e hd.1 hd.2) hnd'
    rw [List.foldl_cons]
    constructor
    · intro pr hpr
      rcases List.mem_cons.mp hpr with rfl | hpr
      · rw [ih2 pr.1 hni, flatDiff_setFlat, if_pos rfl]
      · have hne : pr.1 ≠ hd.1 := by
          intro he
          exact hni (he ▸ List.mem_map_of_mem Prod.fst hpr)
        rw [ih1 pr hpr, flatDiff_setFlat, if_neg hne]
    · intro j hj
      have hj1 : j ≠ hd.1 := by
        intro he
        exact hj (by simp [he])
      have hj2 : j ∉ tl.map Prod.fst := by
        intro hc
        exact hj (by simp [hc])
      rw [ih2 j hj2, flatDiff_setFlat, if_neg hj1]

theorem applyPerturb_range (ediff : Nat → Int × Int) (vars : List Int)
    (t : Int) (mv : List (Nat × Int)) (k : Nat)
    (hperm : mv.Perm (modifiedCandidates ediff vars t))
    (hrange : ∀ i, -1 ≤ flatDiff ediff i ∧ flatDiff ediff i ≤ 1) :
    ∀ j, -1 ≤ flatDiff (applyPerturb ediff mv k) j ∧
      flatDiff (applyPerturb ediff mv k) j ≤ 1 := by
  have hmvnd : (mv.map Prod.fst).Nodup := by
    have hc : ((modifiedCandidates ediff vars t).map Prod.fst).Nodup := by
      unfold modifiedCandidates
      exact flatMap_keys_nodup _ (fun i pr h => (mem_candAt h).1)
        (candAt_keys_nodup ediff vars t) _ (List.nodup_range _)
    exact ((hperm.map Prod.fst).nodup_iff).mpr hc
  have htknd : ((mv.take k).map Prod.fst).Nodup := by
    rw [List.map_take]
    exact List.Nodup.sublist (List.take_sublist _ _) hmvnd
  obtain ⟨hf1, hf2⟩ := foldl_setFlat_spec (mv.take k) ediff htknd
  intro j
  by_cases hj : j ∈ (mv.take k).map Prod.fst
  · obtain ⟨pr, hpr, he⟩ := List.mem_map.mp hj
    have hmv : pr ∈ modifiedCandidates ediff vars t :=
      hperm.subset (List.mem_of_mem_take hpr)
    obtain ⟨i2, hi2, hpi⟩ := List.mem_flatMap.mp hmv
    obtain ⟨h1, _, h3, _⟩ := mem_candAt hpi
    subst h1
    have hv := hf1 pr hpr
    have hr := hrange pr.1
    rw [← he]
    show -1 ≤ flatDiff ((mv.take k).foldl
        (fun e pr => setFlat e pr.1 pr.2) ediff) pr.1 ∧
      flatDiff ((mv.take k).foldl
        (fun e pr => setFlat e pr.1 pr.2) ediff) pr.1 ≤ 1
    rw [hv]
    omega
  · have hv := hf2 j hj
    show -1 ≤ flatDiff ((mv.take k).foldl
        (fun e pr => setFlat e pr.1 pr.2) ediff) j ∧
      flatDiff ((mv.take k).foldl
        (fun e pr => setFlat e pr.1 pr.2) ediff) j ≤ 1
    rw [hv]
    exact hrange j

/-- C6: after branch selection, exactly `|target_flow| / 2` of the cut
variables (those with nonzero net sign, all collected into `cuts`) are each
perturbed by ±1 on one `edge_diff` component; every applied perturbation
keeps that component inside `{-1, 0, 1}`; and for positive target flow the
perturbation sign is opposite to the variable's net sign.  `mv` is the
shuffled candidate list (any permutation — the source shuffles with an
unspecified global RNG), and the source indexes `modified_variables[i]` for
`i < |target_flow| / 2`, which presumes `|target_flow| / 2 ≤ mv.length`. -/
theorem buildIntegerConstraints_perturbation_spec
    (ediff : Nat → Int × Int) (vars : List Int) (t : Int) (mv : List (Nat × Int))
    (hperm : mv.Perm (modifiedCandidates ediff vars t))
    (hk : t.natAbs / 2 ≤ mv.length)
    (hrange : ∀ i, -1 ≤ flatDiff ediff i ∧ flatDiff ediff i ≤ 1) :
    (mv.take (t.natAbs / 2)).length = t.natAbs / 2 ∧
    ((mv.take (t.natAbs / 2)).map Prod.fst).Nodup ∧
    (∀ pr ∈ mv.take (t.natAbs / 2),
      pr.1 ∈ cutIdxs vars ∧ (pr.2 = 1 ∨ pr.2 = -1)) ∧
    (0 < t → ∀ pr ∈ mv.take (t.natAbs / 2),
      (0 < vars.getD pr.1 0 ∧ pr.2 = -1) ∨ (vars.getD pr.1 0 < 0 ∧ pr.2 = 1)) ∧
    (∀ pr ∈ mv.take (t.natAbs / 2),
      flatDiff (applyPerturb ediff mv (t.natAbs / 2)) pr.1
        = flatDiff ediff pr.1 + pr.2) ∧
    (∀ j, j ∉ (mv.take (t.natAbs / 2)).map Prod.fst →
      flatDiff (applyPerturb ediff mv (t.natAbs / 2)) j = flatDiff ediff j) ∧
    (∀ j, -1 ≤ flatDiff (applyPerturb ediff mv (t.natAbs / 2)) j ∧
      flatDiff (applyPerturb ediff mv (t.natAbs / 2)) j ≤ 1) := by
  have hmvnd : (mv.map Prod.fst).Nodup := by
    have hc : ((modifiedCandidates ediff vars t).map Prod.fst).Nodup := by
      unfold modifiedCandidates
      exact flatMap_keys_nodup _ (fun i pr h => (mem_candAt h).1)
        (candAt_keys_nodup ediff vars t) _ (List.nodup_range _)
    exact ((hperm.map Prod.fst).nodup_iff).mpr hc
  have htknd : ((mv.take (t.natAbs / 2)).map Prod.fst).Nodup := by
    rw [List.map_take]
    exact List.Nodup.sublist (List.take_sublist _ _) hmvnd
  have hinfo : ∀ pr ∈ mv.take (t.natAbs / 2),
      pr.1 < vars.length ∧ vars.getD pr.1 0 ≠ 0 ∧
      ((pr.2 = -1 ∧ -1 < flatDiff ediff pr.1) ∨
        (pr.2 = 1 ∧ flatDiff ediff pr.1 < 1)) ∧
      (0 < t →
        ((0 < vars.getD pr.1 0 ∧ pr.2 = -1) ∨
          (vars.getD pr.1 0 < 0 ∧ pr.2 = 1))) := by
    intro pr hpr
    have hmv : pr ∈ modifiedCandidates ediff vars t :=
      hperm.subset (List.mem_of_mem_take hpr)
    obtain ⟨i, hi, hpi⟩ := List.mem_flatMap.mp hmv
    obtain ⟨h1, h2, h3, h4⟩ := mem_candAt hpi
    subst h1
    exact ⟨List.mem_range.mp hi, h2, h3, h4⟩
  obtain ⟨hf1, hf2⟩ := foldl_setFlat_spec (mv.take (t.natAbs / 2)) ediff htknd
  refine ⟨?_, htknd, ?_, ?_, ?_, ?_, ?_⟩
  · rw [List.length_take]
    omega
  · intro pr hpr
    obtain ⟨hlt, hne, h3, _⟩ := hinfo pr hpr
    refine ⟨List.mem_filter.mpr ⟨List.mem_range.mpr hlt, by simpa using hne⟩, ?_⟩
    omega
  · intro ht pr hpr
    exact (hinfo pr hpr).2.2.2 ht
  · intro pr hpr
    exact hf1 pr hpr
  · intro j hj
    exact hf2 j hj
  · exact applyPerturb_range ediff vars t mv (t.natAbs / 2) hperm hrange

/-- Witness for C6: two variables with net signs +1 and −1 over a single
zero edge and target flow 2; the identity permutation of the candidate list
is used and one perturbation is applied, staying in range. -/
theorem buildIntegerConstraints_perturbation_spec_witness :
    ((modifiedCandidates ediffZW varsW 2).take ((2 : Int).natAbs / 2)).length
        = (2 : Int).natAbs / 2 ∧
    (-1 ≤ flatDiff (applyPerturb ediffZW (modifiedCandidates ediffZW varsW 2)
        ((2 : Int).natAbs / 2)) 0 ∧
      flatDiff (applyPerturb ediffZW (modifiedCandidates ediffZW varsW 2)
        ((2 : Int).natAbs / 2)) 0 ≤ 1) := by
  obtain ⟨h1, _, _, _, _, _, h7⟩ :=
    buildIntegerConstraints_perturbation_spec ediffZW varsW 2
      (modifiedCandidates ediffZW varsW 2) (List.Perm.refl _)
      (by decide)
      (by intro i; constructor <;> simp [flatDiff, ediffZW])
  exact ⟨h1, h7 0⟩

/-- C1: after `ComputeMaxFlow` returns, for every face `f` not in the
singularities map both of its integer loop-closure constraint rows sum to 0
in its global orientation frame, and a nonzero residual forces the face to be
a singularity carrying the designed residual of the selected branch.  The
graph solve itself is external to `src/` (hierarchy + optimizer), so the
theorem is settled against the spec §4.4 contract `maxFlowContract`. -/
theorem computeMaxFlow_loop_closure
    (numF : Nat) (cIdx : Nat → Fin 3 → Nat) (cSgn : Nat → Fin 3 → Int)
    (sing : Nat → Option Int) (designed : Nat → Fin 2 → Int)
    (ediff : Nat → Int × Int)
    (h : maxFlowContract numF cIdx cSgn sing designed ediff) :
    (∀ f, f < numF → sing f = none → ∀ j : Fin 2,
        constraintResidual ediff (cIdx (2 * f + j.1)) (cSgn (2 * f + j.1)) = 0) ∧
    (∀ f, f < numF → ∀ j : Fin 2,
        constraintResidual ediff (cIdx (2 * f + j.1)) (cSgn (2 * f + j.1)) ≠ 0 →
        ∃ s, sing f = some s ∧
          constraintResidual ediff (cIdx (2 * f + j.1)) (cSgn (2 * f + j.1))
            = designed f j) := by
  obtain ⟨h1, h2, _⟩ := h
  refine ⟨h1, ?_⟩
  intro f hf j hne
  cases hs : sing f with
  | none => exact absurd (h1 f hf hs j) hne
  | some s => exact ⟨s, rfl, h2 f hf s hs j⟩

/-- Witness for C1: one face, no singularities, all-zero `edge_diff` — the
contract holds and the theorem yields the zero residual of row 0. -/
theorem computeMaxFlow_loop_closure_witness :
    constraintResidual ediffZW (fun _ => 0) (fun _ => 1) = 0 := by
  have h := computeMaxFlow_loop_closure 1 (fun _ _ => 0) (fun _ _ => 1)
    (fun _ => none) (fun _ _ => 0) ediffZW
    (by
      refine ⟨?_, ?_, ?_⟩
      · intro f _ _ j
        simp [constraintResidual, flatDiff, ediffZW]
      · intro f _ s hs
        exact absurd hs (by simp)
      · intro e
        norm_num [inRange2, ediffZW])
  exact h.1 0 (by norm_num) rfl ⟨0, by norm_num⟩

theorem lookupChange_mem :
    ∀ {ch : List (Nat × (Int × Int))} {e : Nat} {c : Int × Int},
      lookupChange ch e = some c → (e, c) ∈ ch := by
  intro ch
  induction ch with
  | nil => intro e c h; exact absurd h (by simp [lookupChange])
  | cons hd tl ih =>
    intro e c h
    unfold lookupChange at h
    by_cases hk : hd.1 = e
    · rw [if_pos hk] at h
      injection h with h
      have he : (e, c) = hd := by rw [← hk, ← h]
      rw [he]
      exact List.mem_cons_self hd tl
    · rw [if_neg hk] at h
      exact List.mem_cons_of_mem hd (ih h)

theorem faceStep_changes {st : FlipState} {v1 el : Nat}
    {ch ch2 : List (Nat × (Int × Int))} {nq : List Nat} {f : Nat}
    (h : faceStep st v1 el ch f = some (ch2, nq)) :
    ch2 = ch ∨ ∃ p nd, ch2 = ch ++ [(p, nd)] ∧
      (st.edgeDiff p - nd).1.natAbs ≤ el ∧ (st.edgeDiff p - nd).2.natAbs ≤ el := by
  unfold faceStep at h
  by_cases h0 : faceTotalDiff st ch f = (0, 0)
  · rw [if_pos h0] at h
    simp only [Option.some.injEq, Prod.mk.injEq] at h
    exact Or.inl h.1.symm
  · rw [if_neg h0] at h
    cases hfind : (List.range 3).find? (fun i => isEscape st v1 ch f i) with
    | none => rw [hfind] at h; exact absurd h (by simp)
    | some i =>
      rw [hfind] at h
      dsimp only at h
      by_cases hdup : ((List.range 3).filter (fun e => i < e)).any
          (fun e => epid st f e == epid st f i)
      · rw [if_pos hdup] at h
        exact absurd h (by simp)
      · rw [if_neg hdup] at h
        by_cases hguard : (st.edgeDiff (epid st f i)
              - rshift90 (faceTotalDiff st ch f) ((4 - eorient st f i) % 4)).1.natAbs ≤ el
            ∧ (st.edgeDiff (epid st f i)
              - rshift90 (faceTotalDiff st ch f) ((4 - eorient st f i) % 4)).2.natAbs ≤ el
        · rw [if_pos hguard] at h
          simp only [Option.some.injEq, Prod.mk.injEq] at h
          exact Or.inr ⟨epid st f i,
            rshift90 (faceTotalDiff st ch f) ((4 - eorient st f i) % 4),
            h.1.symm, hguard.1, hguard.2⟩
        · rw [if_neg hguard] at h
          exact absurd h (by simp)

theorem extractAux_bound (st : FlipState) (v1 el : Nat) :
    ∀ (fuel : Nat) (q : List Nat) (ch : List (Nat × (Int × Int))),
      (∀ pr ∈ ch, (st.edgeDiff pr.1 - pr.2).1.natAbs ≤ el ∧
        (st.edgeDiff pr.1 - pr.2).2.natAbs ≤ el) →
      ∀ pr ∈ extractAux st v1 el fuel q ch,
        (st.edgeDiff pr.1 - pr.2).1.natAbs ≤ el ∧
        (st.edgeDiff pr.1 - pr.2).2.natAbs ≤ el := by
  intro fuel
  induction fuel with
  | zero => intro q ch h pr hpr; exact h pr hpr
  | succ fuel ih =>
    intro q ch h pr hpr
    match q with
    | [] => exact h pr hpr
    | f :: q2 =>
      simp only [extractAux] at hpr
      cases hfs : faceStep st v1 el ch f with
      | none =>
        rw [hfs] at hpr
        exact absurd hpr (by simp)
      | some out =>
        rw [hfs] at hpr
        obtain ⟨ch2, nq⟩ := out
        refine ih (q2 ++ nq) ch2 ?_ pr hpr
        intro pr2 hpr2
        rcases faceStep_changes hfs with rfl | ⟨p, nd, rfl, hb1, hb2⟩
        · exact h pr2 hpr2
        · rcases List.mem_append.mp hpr2 with hin | hnew
          · exact h pr2 hin
          · rcases List.mem_singleton.mp hnew with rfl
            exact ⟨hb1, hb2⟩

theorem extractEdgeSet_bound (st : FlipState) (fuel v1 v2 pid el : Nat) :
    ∀ pr ∈ extractEdgeSet st fuel v1 v2 pid el,
      (st.edgeDiff pr.1 - pr.2).1.natAbs ≤ el ∧
      (st.edgeDiff pr.1 - pr.2).2.natAbs ≤ el := by
  apply extractAux_bound
  intro pr hpr
  rcases List.mem_singleton.mp hpr with rfl
  simp

theorem revert_applyChanges (ed : Nat → Int × Int)
    (ch : List (Nat × (Int × Int))) :
    revertChanges (applyChanges ed ch) ch = ed := by
  funext e
  unfold revertChanges applyChanges
  cases h : lookupChange ch e <;> simp [h]

/-- C3: for every call of `CheckMove` with `check_face` true, the sum of
negative signed areas over the faces incident to the changed edges is never
greater after the call than before it: the changes are applied permanently
only when that sum does not increase (the source accepts only on strict
decrease), and otherwise every `edge_diff` modification is reverted, leaving
the state unchanged. -/
theorem checkMove_negative_area_monotone (st : FlipState)
    (fuel v1 v2 pid el : Nat) :
    negAreaSum (checkMove st fuel v1 v2 pid true el).2
        (modifiedFacesOf st (extractEdgeSet st fuel v1 v2 pid el))
      ≤ negAreaSum st (modifiedFacesOf st (extractEdgeSet st fuel v1 v2 pid el)) ∧
    ((checkMove st fuel v1 v2 pid true el).1 = true →
      negAreaSum (checkMove st fuel v1 v2 pid true el).2
          (modifiedFacesOf st (extractEdgeSet st fuel v1 v2 pid el))
        < negAreaSum st (modifiedFacesOf st (extractEdgeSet st fuel v1 v2 pid el))) ∧
    ((checkMove st fuel v1 v2 pid true el).1 = false →
      (checkMove st fuel v1 v2 pid true el).2 = st) := by
  unfold checkMove
  by_cases hemp : (extractEdgeSet st fuel v1 v2 pid el).isEmpty
  · rw [if_pos hemp]
    exact ⟨le_refl _, fun hc => absurd hc (by simp), fun _ => rfl⟩
  · rw [if_neg hemp]
    by_cases hacc : negAreaSum
          (withEdgeDiff st
            (applyChanges st.edgeDiff (extractEdgeSet st fuel v1 v2 pid el)))
          (modifiedFacesOf st (extractEdgeSet st fuel v1 v2 pid el))
        < negAreaSum st (modifiedFacesOf st (extractEdgeSet st fuel v1 v2 pid el))
        ∨ (true = false)
    · rw [if_pos hacc]
      dsimp only
      have hlt : negAreaSum
          (withEdgeDiff st
            (applyChanges st.edgeDiff (extractEdgeSet st fuel v1 v2 pid el)))
          (modifiedFacesOf st (extractEdgeSet st fuel v1 v2 pid el))
        < negAreaSum st
            (modifiedFacesOf st (extractEdgeSet st fuel v1 v2 pid el)) := by
        rcases hacc with hlt | hf
        · exact hlt
        · exact absurd hf (by simp)
      exact ⟨le_of_lt hlt, fun _ => hlt, fun hc => absurd hc (by simp)⟩
    · rw [if_neg hacc]
      dsimp only
      have hrev : withEdgeDiff st
          (revertChanges
            (applyChanges st.edgeDiff (extractEdgeSet st fuel v1 v2 pid el))
            (extractEdgeSet st fuel v1 v2 pid el)) = st := by
        rw [revert_applyChanges]
        rfl
      rw [hrev]
      exact ⟨le_refl _, fun hc => absurd hc (by simp), fun _ => rfl⟩

/-- C2 counterexample: the repair ladder of `FixFlipAdvance` breaks out of
its `for (; edge_len < 2; ...)` loop at the end of the `edge_len == 1`
iteration, so the only round that runs uses `edge_len = 1` and no round with
`edge_len = 2` exists, contrary to the claim's "rounds run with
edge_len = 2"; and the claim's preservation assertion is also false of such
a round: on the in-range state `stX`, `CheckMove(1, 2, 0, check_face = 1)`
with `edge_len = 2` is accepted yet drives edge 3's diff to `(2, 0)`,
outside `{-1, 0, 1}`. -/
theorem repair_rounds_never_reach_edge_len_two :
    repairRounds = [1] ∧ 2 ∉ repairRounds ∧
    (inRange2 (stX.edgeDiff 0) ∧ inRange2 (stX.edgeDiff 1) ∧
      inRange2 (stX.edgeDiff 2) ∧ inRange2 (stX.edgeDiff 3) ∧
      inRange2 (stX.edgeDiff 4)) ∧
    (checkMove stX 4 1 2 0 true 2).1 = true ∧
    (checkMove stX 4 1 2 0 true 2).2.edgeDiff 3 = (2, 0) ∧
    ¬ inRange2 ((checkMove stX 4 1 2 0 true 2).2.edgeDiff 3) := by
  refine ⟨rfl, by decide, by decide, ?_, ?_, by decide⟩
  · decide
  · decide

/-- C2 (amended): both components of every `edge_diff` entry lie in
`{-1, 0, 1}` from the componentwise clamp until the output: the clamp maps
every integer into the range; the randomized ±1 perturbation of
`BuildIntegerConstraints` preserves the range (any prefix of any shuffle of
the candidate list); the repair loop executes only its `edge_len = 1` round;
every `CheckMove` with `edge_len = 1` preserves the range (each entry of the
extracted edge set changes its edge to a value bounded componentwise by
`edge_len`, and a rejected call reverts exactly); and the final propagation
`edge_diff[e] = rshift90(edge_diff[root], orient)` (lines 1975–1979)
preserves the range as well.  The flow solve keeps the clamp by its
spec-modelled contract (`maxFlowContract`). -/
theorem edge_diff_clamp_invariant :
    (∀ x : Int, -1 ≤ clampDiff x ∧ clampDiff x ≤ 1) ∧
    (∀ (ediff : Nat → Int × Int) (vars : List Int) (t : Int)
        (mv : List (Nat × Int)) (k : Nat),
      mv.Perm (modifiedCandidates ediff vars t) →
      (∀ i, -1 ≤ flatDiff ediff i ∧ flatDiff ediff i ≤ 1) →
      ∀ j, -1 ≤ flatDiff (applyPerturb ediff mv k) j ∧
        flatDiff (applyPerturb ediff mv k) j ≤ 1) ∧
    repairRounds = [1] ∧
    (∀ (v : Int × Int) (r : Nat), inRange2 v → inRange2 (rshift90 v r)) ∧
    (∀ (st : FlipState) (fuel v1 v2 pid : Nat) (cf : Bool),
      InRangeState st → InRangeState (checkMove st fuel v1 v2 pid cf 1).2) := by
  refine ⟨?_, fun ediff vars t mv k hp hr =>
    applyPerturb_range ediff vars t mv k hp hr, rfl, ?_, ?_⟩
  · intro x
    unfold clampDiff
    by_cases hneg : x < 0
    · rw [if_pos hneg]
      by_cases habs : 1 < -x
      · rw [if_pos habs]
        have hx : x ≠ 0 := by omega
        rw [Int.tdiv_neg, Int.tdiv_self hx]
        omega
      · rw [if_neg habs]
        omega
    · rw [if_neg hneg]
      by_cases habs : 1 < x
      · rw [if_pos habs]
        have hx : x ≠ 0 := by omega
        rw [Int.tdiv_self hx]
        omega
      · rw [if_neg habs]
        omega
  · intro v r hv
    unfold inRange2 at hv
    have h4 : r % 4 = 0 ∨ r % 4 = 1 ∨ r % 4 = 2 ∨ r % 4 = 3 := by omega
    unfold rshift90
    rcases h4 with h | h | h | h <;> rw [h] <;> unfold inRange2 <;> dsimp only <;>
      omega
  · intro st fuel v1 v2 pid cf h
    unfold checkMove
    by_cases hemp : (extractEdgeSet st fuel v1 v2 pid 1).isEmpty
    · rw [if_pos hemp]
      exact h
    · rw [if_neg hemp]
      have happ : InRangeState (withEdgeDiff st
          (applyChanges st.edgeDiff (extractEdgeSet st fuel v1 v2 pid 1))) := by
        intro e
        show inRange2 (applyChanges st.edgeDiff
          (extractEdgeSet st fuel v1 v2 pid 1) e)
        unfold applyChanges
        cases hl : lookupChange (extractEdgeSet st fuel v1 v2 pid 1) e with
        | none => exact h e
        | some c =>
          have hmem := lookupChange_mem hl
          have hb := extractEdgeSet_bound st fuel v1 v2 pid 1 (e, c) hmem
          dsimp only at hb
          unfold inRange2
          dsimp only
          omega
      split
      · exact happ
      · intro e
        show inRange2 (revertChanges
          (applyChanges st.edgeDiff (extractEdgeSet st fuel v1 v2 pid 1))
          (extractEdgeSet st fuel v1 v2 pid 1) e)
        rw [revert_applyChanges]
        exact h e

/-- Witness for C2: the concrete all-zero state is in range and stays in
range through a `CheckMove` at `edge_len = 1`. -/
theorem edge_diff_clamp_invariant_witness :
    InRangeState stW ∧ InRangeState (checkMove stW 1 0 1 0 true 1).2 := by
  have hst : InRangeState stW := by
    intro e
    unfold inRange2 stW
    norm_num
  exact ⟨hst, edge_diff_clamp_invariant.2.2.2.2 stW 1 0 1 0 true hst⟩
